import Mathlib

/-!
Verification development for the DocChat (Ollama MERN) repository.

The repository's visible code is the React frontend (`frontend/src/App.tsx`)
together with documentation describing the FastAPI backend.  Pure helper
functions of the frontend (`parseSseLines`, `getFriendlyError`, the guards in
`handleChat`, `handleRenameConversation`, the Save-and-Resend handler) are
embedded directly from the TypeScript source.  The backend components
(chunker, vector index, ingestor, retriever, conversation store, chat
orchestrator) are not part of the visible sources; definitions for them are
modelled from the specification and are marked as such in their doc comments.

JavaScript strings are modelled by Lean `String`; the JS regular expression
`\s` and `String.prototype.trim` are modelled with `Char.isWhitespace`, which
covers the ASCII whitespace relevant here.
-/

namespace DocChat

/-! ## SSE line parser (from `App.tsx`, `parseSseLines`, lines 368-385)

The TypeScript function splits the buffer on `"\n\n"`, pops the final
fragment as the carry, and for every earlier block: trims it, and if the
trimmed text starts with `data:`, strips the `data:` tag and following
whitespace and feeds the payload to `JSON.parse`; a successfully parsed,
non-empty payload is handed to the `onEvent` callback, all other blocks are
skipped.  `JSON.parse` is abstracted as a parameter `parse : String → Option J`
and the callback as a state-update function, so that "invoked exactly once,
in order" is expressed by a fold over an arbitrary state type. -/

/-- JS `String.prototype.trim`: strip whitespace from both ends.  (Defined
over the character list so that it evaluates by kernel reduction; the
built-in `String.trim` is extensionally the same on the ASCII strings
involved here but does not reduce.) -/
def jsTrim (s : String) : String :=
  String.mk
    (((s.data.dropWhile Char.isWhitespace).reverse.dropWhile
        Char.isWhitespace).reverse)

/-- JS `String.prototype.toLowerCase`, at the level of the character list
(again so that it evaluates by kernel reduction). -/
def jsToLower (s : String) : String :=
  String.mk (s.data.map Char.toLower)

/-- JS `String.prototype.startsWith`, at the level of the character list. -/
def strStarts (s pre : String) : Bool :=
  pre.data.isPrefixOf s.data

/-- The separator between SSE event blocks. -/
def eventSep : String := "\n\n"

/-- The payload extraction `line.replace(/^data:\s*/, '')` applied to a
trimmed line that starts with `data:`: drop the five characters of the tag
and any following whitespace. -/
def stripDataTag (line : String) : String :=
  String.mk ((line.data.drop 5).dropWhile Char.isWhitespace)

/-- Processing of one complete event block: trim, require the `data:` tag,
strip it, skip empty payloads, and attempt to parse the payload. -/
def processBlock {J : Type} (parse : String → Option J) (evt : String) : Option J :=
  let line := jsTrim evt
  if strStarts line "data:" then
    let payload := stripDataTag line
    if payload = "" then none else parse payload
  else none

/-- The loop of `parseSseLines`: the last fragment of the split is the carry
(`events.pop()`), every earlier fragment is processed in order, firing the
callback on each successfully parsed payload.  The per-block processing is a
parameter `f`; `parseSseLines` instantiates it with `processBlock parse`. -/
def sseLoop {J σ : Type} (f : String → Option J) (onEvent : σ → J → σ) :
    σ → List String → σ × String
  | s, [] => (s, "")
  | s, evt :: rest =>
    match rest with
    | [] => (s, evt)
    | _ :: _ =>
      match f evt with
      | some j => sseLoop f onEvent (onEvent s j) rest
      | none => sseLoop f onEvent s rest

/-- The function `parseSseLines` from the source: split the buffer on blank
lines and run the block loop. -/
def parseSseLines {J σ : Type} (parse : String → Option J) (onEvent : σ → J → σ)
    (s : σ) (buffer : String) : σ × String :=
  sseLoop (processBlock parse) onEvent s (buffer.splitOn eventSep)

/-! ## Friendly error messages (from `App.tsx`, `getFriendlyError`, lines 146-174) -/

/-- Containment of `needle` in `hay` as a contiguous run, the model of JS
`String.prototype.includes` at the level of character lists. -/
def listHasRun : List Char → List Char → Bool
  | hay, needle =>
    match hay with
    | [] => needle.isEmpty
    | _ :: t => needle.isPrefixOf hay || listHasRun t needle

/-- JS `msg.includes(pat)`. -/
def strIncludes (s pat : String) : Bool := listHasRun s.data pat.data

/-- The tag stripping `original.replace(/^Error:\s*/i, '')`: when the string
starts with `error:` case-insensitively, drop those six characters and the
whitespace after them. -/
def stripErrorTag (s : String) : String :=
  if strStarts (jsToLower s) "error:" then
    String.mk ((s.data.drop 6).dropWhile Char.isWhitespace)
  else s

/-- The function `getFriendlyError` from the source, acting on the string
that `String(error)` produces.  The branch structure mirrors the TypeScript
`if` chain, including the precedence of the second condition, where the
check for ollama is disjoined with the conjunction of the checks for
connection and 11434. -/
def getFriendlyError (s : String) : String :=
  let msg := jsToLower s
  if strIncludes msg "failed to fetch" || strIncludes msg "network" ||
      strIncludes msg "econnrefused" then
    "Cannot connect to server. Please ensure the backend is running."
  else if strIncludes msg "ollama" ||
      (strIncludes msg "connection" && strIncludes msg "11434") then
    "Ollama is not running. Please start Ollama and try again."
  else if strIncludes msg "embedding" then
    "Embedding model not available. Run: ollama pull nomic-embed-text"
  else if strIncludes msg "413" || strIncludes msg "too large" then
    "File too large. Please upload a smaller PDF."
  else if strIncludes msg "404" || strIncludes msg "not found" then
    "Resource not found. It may have been deleted."
  else if strIncludes msg "timeout" then
    "Request timed out. Please try again."
  else if strIncludes msg "pdf" || strIncludes msg "parse" then
    "Failed to process PDF. The file may be corrupted or password-protected."
  else
    String.mk ((stripErrorTag s).data.take 150)

/-! ## Persisted conversation data

The type `Message` mirrors the `MessageRecord` type of `App.tsx` and the
SQLite messages table described by the spec's data model. -/

/-- Message roles. -/
inductive Role where
  | user
  | assistant
deriving DecidableEq, Repr

/-- A persisted chat message (`MessageRecord` in `App.tsx`). -/
structure Message where
  id : String
  conversationId : String
  role : Role
  content : String
  createdAt : Nat
deriving DecidableEq, Repr

/-- Modelled from the spec: the operations the backend Conversation Store
performs on the persisted message history (`append_message` and the cascade
of `delete_conversation`); the backend itself is not among the visible
sources. -/
inductive StoreOp where
  | appendMsg (m : Message)
  | deleteConv (cid : String)
deriving DecidableEq, Repr

/-- Modelled from the spec: effect of one store operation on the ordered
message history. -/
def applyOp (h : List Message) : StoreOp → List Message
  | .appendMsg m => h ++ [m]
  | .deleteConv c => h.filter (fun m => m.conversationId ≠ c)

/-- Effect of a sequence of store operations. -/
def applyOps (h : List Message) (ops : List StoreOp) : List Message :=
  ops.foldl applyOp h

/-- The JSON body the frontend posts to `/chat/stream`
(`App.tsx`, `handleChat`, lines 428-433). -/
structure ChatRequest where
  conversationId : String
  message : String
  sourceName : Option String
  sourceId : Option String
deriving DecidableEq, Repr

/-- Fresh identifiers and timestamps the backend assigns to the two messages
persisted during one chat turn. -/
structure TurnIds where
  userId : String
  asstId : String
  userAt : Nat
  asstAt : Nat
deriving DecidableEq, Repr

/-- Modelled from the spec: the server-side effect of one `/chat/stream`
request on the message history — persist the user message (step 2 of the
orchestrator) and, once streaming finishes, the assistant message (step 6).
The backend is not among the visible sources. -/
def chatStreamOps (req : ChatRequest) (asstText : String) (g : TurnIds) :
    List StoreOp :=
  [ .appendMsg ⟨g.userId, req.conversationId, .user, req.message, g.userAt⟩,
    .appendMsg ⟨g.asstId, req.conversationId, .assistant, asstText, g.asstAt⟩ ]

/-! ## Entry guard of `handleChat` (from `App.tsx`, lines 387-435)

Only the synchronous prefix of `handleChat` up to issuing the `fetch` is
relevant to the claims: the guard, the state resets, the local append of the
user message, and the request body. -/

/-- The pieces of component state that `handleChat` reads or writes before
issuing the request. -/
structure ChatUiState where
  message : String
  streaming : Bool
  streamingText : String
  chatError : Option String
  messages : List Message
deriving DecidableEq, Repr

/-- The synchronous prefix of `handleChat`: compute
`textToSend = (override ?? message).trim()`, return untouched when the text
is empty or a stream is in flight, otherwise reset the error/stream state,
optionally append the user message locally, and issue the request. -/
def handleChatStart (st : ChatUiState) (override : Option String)
    (appendUser : Bool) (cid : String) (attachName attachId : Option String)
    (uid : String) (t : Nat) : ChatUiState × Option ChatRequest :=
  let textToSend := jsTrim (override.getD st.message)
  if textToSend = "" || st.streaming then (st, none)
  else
    let st1 : ChatUiState :=
      { st with chatError := none, streaming := true, streamingText := "", message := "" }
    let st2 : ChatUiState :=
      if appendUser then
        { st1 with messages := st1.messages ++ [⟨uid, cid, .user, textToSend, t⟩] }
      else st1
    (st2, some ⟨cid, textToSend, attachName, attachId⟩)

/-- The Save-and-Resend handler (`App.tsx`, lines 843-858): bail out when the
edited text trims to empty, otherwise call
`handleChat(undefined, editingText, { appendUser: false })`.  Only the issued
request matters for the persisted history. -/
def saveAndResendStart (st : ChatUiState) (cid editText : String)
    (attachName attachId : Option String) (uid : String) (t : Nat) :
    ChatUiState × Option ChatRequest :=
  if jsTrim editText = "" then (st, none)
  else handleChatStart st (some editText) false cid attachName attachId uid t

/-! ## Conversation rename (from `App.tsx`, `handleRenameConversation`,
lines 510-528) -/

/-- The PATCH request issued by `handleRenameConversation`: `none` when the
title trims to empty (the handler returns without contacting the server),
otherwise the conversation id paired with the trimmed title. -/
def handleRenameConversation (id newTitle : String) :
    Option (String × String) :=
  if jsTrim newTitle = "" then none else some (id, jsTrim newTitle)

/-- Modelled from the spec: the server-side title table after an optional
rename request; the backend is not among the visible sources. -/
def applyRenameServer (titles : String → String)
    (r : Option (String × String)) : String → String :=
  match r with
  | none => titles
  | some (i, t) => fun j => if j = i then t else titles j

/-! ## Vector index and document ingestor

Modelled from the spec: the backend Vector Index (§4.3) and Document
Ingestor (§4.4) are not among the visible sources.  The index is an ordered
list of entries keyed by `(document id, sequence index)`; `upsert` replaces
by id, and the ingestor first removes the document's previous entries
(re-upload replaces), then embeds and upserts chunk by chunk, rolling back
the document's entries on any embedding/indexing failure. -/

/-- One vector-index entry: chunk provenance plus the embedded vector. -/
structure Entry where
  docId : String
  seq : Nat
  page : Nat
  vec : List Int
deriving DecidableEq, Repr

/-- The identifier under which an entry is upserted. -/
def entryId (e : Entry) : String × Nat := (e.docId, e.seq)

/-- Modelled from the spec: idempotent-by-id upsert — re-upserting an id
replaces its entry. -/
def upsert (idx : List Entry) (e : Entry) : List Entry :=
  idx.filter (fun x => entryId x ≠ entryId e) ++ [e]

/-- Modelled from the spec: delete all index entries of one document. -/
def deleteDoc (idx : List Entry) (d : String) : List Entry :=
  idx.filter (fun e => e.docId ≠ d)

/-- A chunk draft: page provenance plus text. -/
structure Chunk where
  page : Nat
  text : String
deriving DecidableEq, Repr

/-- Modelled from the spec: the chunker, abstracted to one chunk per
non-empty page — empty or whitespace-only pages yield zero chunks, and the
function is deterministic in its input; the ingestion claims do not depend
on finer chunk boundaries. -/
def chunkPages (pages : List (Nat × String)) : List Chunk :=
  pages.filterMap (fun p => if jsTrim p.2 = "" then none else some ⟨p.1, p.2⟩)

/-- Ingestion failures surfaced by the ingestor. -/
inductive IngErr where
  | embeddingUnavailable
  | embeddingDimensionMismatch
  | indexingFailed
deriving DecidableEq, Repr

/-- The entry produced for chunk `c` at sequence index `i` of document `d`. -/
def mkEntry (d : String) (i : Nat) (c : Chunk) (v : List Int) : Entry :=
  ⟨d, i, c.page, v⟩

/-- Modelled from the spec: the embed-and-upsert loop of the ingestor.  On
the first failing chunk it deletes every entry of the document from the
index (compensating rollback) and returns the error. -/
def ingestGo (d : String) (embed : Chunk → Except IngErr (List Int)) :
    List (Nat × Chunk) → List Entry → Option IngErr × List Entry
  | [], idx => (none, idx)
  | (i, c) :: rest, idx =>
    match embed c with
    | .ok v => ingestGo d embed rest (upsert idx (mkEntry d i c v))
    | .error e => (some e, deleteDoc idx d)

/-- Modelled from the spec: `ingest` for one document — drop the document's
prior entries (re-upload fully replaces), chunk the extracted pages, then
embed and upsert each chunk in sequence order. -/
def ingestDoc (d : String) (pages : List (Nat × String))
    (embed : Chunk → Except IngErr (List Int)) (idx : List Entry) :
    Option IngErr × List Entry :=
  ingestGo d embed (chunkPages pages).enum (deleteDoc idx d)

/-! ## Retriever

Modelled from the spec (§4.5): embed the query, rank the (optionally
filtered) index entries by descending similarity, keep the top `k`, drop
candidates below the relevance floor, and deduplicate citations landing on
the same page of the same document. -/

/-- A citation: document, page, originating chunk id and similarity score. -/
structure Citation where
  docId : String
  page : Nat
  chunkId : String × Nat
  score : Int
deriving DecidableEq, Repr

/-- Inner-product similarity between the query vector and an entry vector. -/
def dot : List Int → List Int → Int
  | a :: as, b :: bs => a * b + dot as bs
  | _, _ => 0

/-- Score one entry against the query vector. -/
def scoreEntry (qv : List Int) (e : Entry) : Citation :=
  ⟨e.docId, e.page, entryId e, dot qv e.vec⟩

/-- Ranking relation: descending score. -/
def scoreGe (a b : Citation) : Prop := b.score ≤ a.score

instance : DecidableRel scoreGe := fun a b => Int.decLe b.score a.score

instance : IsTotal Citation scoreGe :=
  ⟨fun a b => (Int.le_total b.score a.score).elim Or.inl Or.inr⟩

instance : IsTrans Citation scoreGe :=
  ⟨fun _ _ _ h1 h2 => le_trans h2 h1⟩

/-- Modelled from the spec: the ranked candidate list the Vector Index
returns — entries restricted by the optional source filter, scored, sorted
by descending similarity, truncated to the top `k`. -/
def rankedCandidates (idx : List Entry) (qv : List Int) (k : Nat)
    (src : Option String) : List Citation :=
  let pool := match src with
    | none => idx
    | some d => idx.filter (fun e => e.docId = d)
  ((pool.map (scoreEntry qv)).insertionSort scoreGe).take k

/-- Deduplicate citations by `(document, page)`, keeping the first (highest
ranked) citation for each page. -/
def dedupPages (seen : List (String × Nat)) : List Citation → List Citation
  | [] => []
  | c :: rest =>
    if (c.docId, c.page) ∈ seen then dedupPages seen rest
    else c :: dedupPages ((c.docId, c.page) :: seen) rest

/-- Modelled from the spec: `Retriever.retrieve` — embed the query, rank the
candidates, drop everything below the relevance floor, deduplicate pages. -/
def retrieve (embedQ : String → List Int) (idx : List Entry) (q : String)
    (k : Nat) (floor : Int) (src : Option String) : List Citation :=
  dedupPages []
    ((rankedCandidates idx (embedQ q) k src).filter (fun c => floor ≤ c.score))

/-- The grounded prompt plan a chat turn is built from. -/
structure TurnPlan where
  grounded : Bool
  citations : List Citation
  question : String
deriving DecidableEq, Repr

/-- Modelled from the spec: the orchestrator's handling of retrieval output
(step 3) — an empty citation list is a valid outcome that yields an
ungrounded, context-free turn, never an error. -/
def composeTurn (cits : List Citation) (q : String) :
    Except IngErr TurnPlan :=
  .ok ⟨!cits.isEmpty, cits, q⟩

/-! ## Chat event stream and cancellation

Modelled from the spec (§4.7 step 5, §6 Chat): the backend emits a first
frame carrying the citation list, then one frame per token fragment, then a
final status frame; it concurrently accumulates the fragments, and on
client cancellation after `n` fragments persists the accumulated partial
answer with the turn marked cancelled.  The backend producer is not among
the visible sources. -/

/-- One frame of the chat event stream. -/
inductive Frame where
  | citations (cs : List Citation)
  | token (t : String)
  | done
  | error (detail : String)
deriving DecidableEq, Repr

/-- The final status frame: `done` on success, `error` with detail. -/
def statusFrame : Option String → Frame
  | none => .done
  | some d => .error d

/-- The full frame sequence of one chat turn. -/
def chatFrames (cs : List Citation) (toks : List String)
    (err : Option String) : List Frame :=
  (Frame.citations cs :: toks.map Frame.token) ++ [statusFrame err]

/-- Classification of frames for the ordering property. -/
inductive FrameKind where
  | citationsK
  | tokenK
  | statusK
deriving DecidableEq, Repr

/-- The kind of a frame. -/
def frameKind : Frame → FrameKind
  | .citations _ => .citationsK
  | .token _ => .tokenK
  | .done => .statusK
  | .error _ => .statusK

/-- The generation state the orchestrator threads through the stream: the
fragments forwarded so far and the accumulated text. -/
structure GenState where
  emitted : List String
  acc : String
deriving DecidableEq, Repr

/-- Forward one token fragment and accumulate it. -/
def emitTok (st : GenState) (t : String) : GenState :=
  ⟨st.emitted ++ [t], st.acc ++ t⟩

/-- Run the streaming loop over a fragment sequence. -/
def streamRun (toks : List String) : GenState :=
  toks.foldl emitTok ⟨[], ""⟩

/-- The persisted record of a turn. -/
structure FinalizedTurn where
  content : String
  cancelled : Bool
deriving DecidableEq, Repr

/-- Modelled from the spec: finalization after a client cancellation that
arrives once `n` fragments have been emitted — persist the accumulated text
and mark the turn cancelled rather than discarding the partial answer. -/
def finalizeOnCancel (toks : List String) (n : Nat) : FinalizedTurn :=
  ⟨(streamRun (toks.take n)).acc, true⟩

/-! ## Theorems -/

/-- C9: for every input (modelled by the string `String(error)` produces),
`getFriendlyError` returns a string of length at most 150: every matched
category returns a fixed short message, and the fallback strips a leading
`Error:` tag and truncates the remainder to 150 characters. -/
theorem getFriendlyError_length_le (s : String) :
    (getFriendlyError s).length ≤ 150 := by
  unfold getFriendlyError
  dsimp only
  split
  · decide
  split
  · decide
  split
  · decide
  split
  · decide
  split
  · decide
  split
  · decide
  split
  · decide
  show ((stripErrorTag s).data.take 150).length ≤ 150
  simp [List.length_take]

/-- C10: when the message text is empty after trimming or a stream is
already in flight, `handleChat` returns before doing anything: the component
state (messages, streaming, streamingText, chatError, message) is untouched
and no request is issued. -/
theorem handleChat_guard_noop (st : ChatUiState) (override : Option String)
    (appendUser : Bool) (cid : String) (an ai : Option String)
    (uid : String) (t : Nat)
    (hguard : jsTrim (override.getD st.message) = "" ∨ st.streaming = true) :
    handleChatStart st override appendUser cid an ai uid t = (st, none) := by
  unfold handleChatStart
  rcases hguard with h | h <;> simp [h]

/-- Witness for C10 at a concrete state whose pending message is
whitespace-only. -/
theorem handleChat_guard_noop_witness :
    handleChatStart ⟨"   ", false, "", none, []⟩ none true "c1" none none "u1" 5 =
      (⟨"   ", false, "", none, []⟩, none) :=
  handleChat_guard_noop ⟨"   ", false, "", none, []⟩ none true "c1" none none "u1" 5
    (Or.inl (by decide))

/-- C7: a rename whose title is empty after trimming issues no request and
leaves every stored conversation title unchanged, and any request that is
issued carries the trimmed, non-empty title. -/
theorem rename_validated_nonempty (id newTitle : String)
    (titles : String → String) :
    (jsTrim newTitle = "" →
      handleRenameConversation id newTitle = none ∧
      applyRenameServer titles (handleRenameConversation id newTitle) = titles)
  ∧ (∀ i t, handleRenameConversation id newTitle = some (i, t) →
      i = id ∧ t = jsTrim newTitle ∧ ¬ t = "") := by
  constructor
  · intro h
    unfold handleRenameConversation
    simp [h, applyRenameServer]
  · intro i t ht
    unfold handleRenameConversation at ht
    by_cases h : jsTrim newTitle = ""
    · simp [h] at ht
    · simp [h] at ht
      exact ⟨ht.1.symm, ht.2.symm, fun hc => h (ht.2.trans hc)⟩

/-- Witness for C7 at a whitespace-only title: no request is issued and the
title table is unchanged. -/
theorem rename_validated_nonempty_witness :
    handleRenameConversation "c1" "   " = none ∧
    applyRenameServer (fun _ => "old") (handleRenameConversation "c1" "   ") =
      (fun _ => "old") :=
  (rename_validated_nonempty "c1" "   " (fun _ => "old")).1 (by decide)

/-- Concatenation distributes over the head of a fragment list. -/
theorem join_cons (t : String) (l : List String) :
    String.join (t :: l) = t ++ String.join l := by
  simp [String.join_eq]
  rfl

/-- The streaming loop appends the fragments it processes to `emitted` and
their concatenation to `acc`. -/
theorem streamRun_foldl (toks : List String) : ∀ st : GenState,
    (toks.foldl emitTok st).emitted = st.emitted ++ toks ∧
    (toks.foldl emitTok st).acc = st.acc ++ String.join toks := by
  induction toks with
  | nil =>
    intro st
    simp [String.join]
  | cons t rest ih =>
    intro st
    obtain ⟨h1, h2⟩ := ih (emitTok st t)
    constructor
    · rw [List.foldl_cons, h1]
      simp [emitTok]
    · rw [List.foldl_cons, h2, join_cons]
      simp [emitTok, String.append_assoc]

/-- C1: cancelling the stream after `n` token fragments have been emitted
persists an assistant record whose content is the concatenation, in emission
order, of exactly the fragments emitted so far, with the turn marked
cancelled. -/
theorem cancel_persists_accumulated (toks : List String) (n : Nat) :
    (streamRun (toks.take n)).emitted = toks.take n
  ∧ (finalizeOnCancel toks n).content = String.join (toks.take n)
  ∧ (finalizeOnCancel toks n).cancelled = true := by
  obtain ⟨h1, h2⟩ := streamRun_foldl (toks.take n) ⟨[], ""⟩
  refine ⟨?_, ?_, rfl⟩
  · simpa [streamRun] using h1
  · show (streamRun (toks.take n)).acc = String.join (toks.take n)
    simpa [streamRun] using h2

/-- The block loop delivers, in textual order, exactly the events of the
blocks before the final fragment, and returns the final fragment as carry. -/
theorem sseLoop_spec {J σ : Type} (f : String → Option J)
    (onEvent : σ → J → σ) : ∀ (l : List String) (s : σ),
    sseLoop f onEvent s l =
      ((l.dropLast.filterMap f).foldl onEvent s, l.getLast?.getD "") := by
  intro l
  induction l with
  | nil => intro s; rfl
  | cons a l ih =>
    intro s
    cases l with
    | nil => rfl
    | cons b m =>
      cases h : f a with
      | some j =>
        have hr := ih (onEvent s j)
        rw [sseLoop, h]
        dsimp only
        rw [hr]
        simp [List.filterMap_cons, h, List.getLast?_cons_cons]
      | none =>
        have hr := ih s
        rw [sseLoop, h]
        dsimp only
        rw [hr]
        simp [List.filterMap_cons, h, List.getLast?_cons_cons]

/-- C8: `parseSseLines` returns as carry the fragment after the last
`"\n\n"` separator of the buffer, and fires `onEvent` exactly once, in
textual order, for each complete block whose trimmed text starts with
`data:` and whose non-empty payload parses; blocks with empty or unparseable
payloads contribute nothing and do not stop the processing of later blocks. -/
theorem parseSseLines_spec {J σ : Type} (parse : String → Option J)
    (onEvent : σ → J → σ) (s : σ) (buffer : String) :
    parseSseLines parse onEvent s buffer =
      ((((buffer.splitOn eventSep).dropLast.filterMap
          (processBlock parse)).foldl onEvent s),
        ((buffer.splitOn eventSep).getLast?.getD "")) :=
  sseLoop_spec (processBlock parse) onEvent (buffer.splitOn eventSep) s

/-- The status frame is always classified as a status. -/
theorem frameKind_statusFrame (err : Option String) :
    frameKind (statusFrame err) = FrameKind.statusK := by
  cases err <;> rfl

/-- Indexing the token/status tail of the stream: positions before
`toks.length` hold tokens, position `toks.length` holds the final frame,
nothing lies beyond. -/
theorem kindAt_tail (st : Frame) : ∀ (toks : List String) (i : Nat),
    (((toks.map Frame.token ++ [st]).get? i).map frameKind) =
      if i < toks.length then some FrameKind.tokenK
      else if i = toks.length then some (frameKind st)
      else none := by
  intro toks
  induction toks with
  | nil =>
    intro i
    cases i with
    | zero => simp
    | succ n => simp
  | cons t ts ih =>
    intro i
    cases i with
    | zero => simp [frameKind]
    | succ n =>
      have := ih n
      simp only [List.map_cons, List.cons_append, List.get?_cons_succ, this,
        List.length_cons]
      by_cases h1 : n < ts.length
      · simp [h1, Nat.succ_lt_succ h1]
      · by_cases h2 : n = ts.length
        · simp [h1, h2]
        · have : ¬ n + 1 < ts.length + 1 := by omega
          have h3 : ¬ n + 1 = ts.length + 1 := by omega
          simp [h1, h2, this, h3]

/-- C2: the event stream of every chat turn is ordered — the first frame is
the citation list, every frame strictly between the first and the last is a
token frame, the last frame is the status frame (`done` or `error` with
detail), and no frame exists beyond the status frame or before the
citations frame. -/
theorem chat_frame_order (cs : List Citation) (toks : List String)
    (err : Option String) :
    (chatFrames cs toks err).head? = some (Frame.citations cs)
  ∧ (chatFrames cs toks err).getLast? = some (statusFrame err)
  ∧ (∀ i, (((chatFrames cs toks err).get? i).map frameKind) =
      if i = 0 then some FrameKind.citationsK
      else if i < toks.length + 1 then some FrameKind.tokenK
      else if i = toks.length + 1 then some FrameKind.statusK
      else none)
  ∧ (statusFrame err = Frame.done ∨ ∃ d, statusFrame err = Frame.error d) := by
  refine ⟨?_, ?_, ?_, ?_⟩
  · simp [chatFrames]
  · exact List.getLast?_concat _
  · intro i
    cases i with
    | zero => simp [chatFrames, frameKind]
    | succ n =>
      have h := kindAt_tail (statusFrame err) toks n
      simp only [chatFrames, List.cons_append, List.get?_cons_succ, h,
        frameKind_statusFrame]
      by_cases h1 : n < toks.length
      · simp [h1, Nat.succ_lt_succ h1, Nat.succ_ne_zero]
      · by_cases h2 : n = toks.length
        · simp [h1, h2]
        · have h3 : ¬ n + 1 < toks.length + 1 := by omega
          have h4 : ¬ n + 1 = toks.length + 1 := by omega
          simp [h1, h2, h3, h4]
  · cases err with
    | none => exact Or.inl rfl
    | some d => exact Or.inr ⟨d, rfl⟩

/-- After deleting a document from the index, no entry of that document
remains. -/
theorem deleteDoc_filter_self (idx : List Entry) (d : String) :
    (deleteDoc idx d).filter (fun e => e.docId = d) = [] := by
  induction idx with
  | nil => rfl
  | cons e t ih =>
    simp only [deleteDoc, List.filter_cons] at *
    by_cases h : e.docId = d
    · simp [h, ih]
    · simp [h, ih]

/-- When the embed-and-upsert loop fails, the resulting index holds no entry
of the ingested document. -/
theorem ingestGo_fail_clean (d : String)
    (embed : Chunk → Except IngErr (List Int)) :
    ∀ (pairs : List (Nat × Chunk)) (idx : List Entry),
    ((ingestGo d embed pairs idx).1).isSome = true →
    ((ingestGo d embed pairs idx).2).filter (fun e => e.docId = d) = [] := by
  intro pairs
  induction pairs with
  | nil =>
    intro idx h
    simp [ingestGo] at h
  | cons p rest ih =>
    intro idx h
    obtain ⟨i, c⟩ := p
    cases hemb : embed c with
    | ok v =>
      rw [ingestGo, hemb] at h
      rw [ingestGo, hemb]
      exact ih _ h
    | error e =>
      rw [ingestGo, hemb]
      exact deleteDoc_filter_self idx d

/-- C3: whenever the ingestion of a document fails — at any stage, after any
number of partial vector-index writes — the resulting Vector Index contains
zero entries for that document. -/
theorem ingest_failure_rolls_back (d : String) (pages : List (Nat × String))
    (embed : Chunk → Except IngErr (List Int)) (idx : List Entry)
    (err : IngErr) (h : (ingestDoc d pages embed idx).1 = some err) :
    ((ingestDoc d pages embed idx).2).filter (fun e => e.docId = d) = [] := by
  unfold ingestDoc at h ⊢
  exact ingestGo_fail_clean d embed _ _ (by rw [h]; rfl)

/-- Witness for C3: an embedding capability that fails on every attempt
leaves no entry of the failed document in the index (other documents'
entries survive untouched in the result, which holds exactly the unrelated
entry). -/
theorem ingest_failure_rolls_back_witness :
    ((ingestDoc "d" [(1, "x")]
        (fun _ => Except.error IngErr.embeddingUnavailable)
        [⟨"other", 0, 1, [2]⟩]).2).filter (fun e => e.docId = "d") = [] :=
  ingest_failure_rolls_back "d" [(1, "x")]
    (fun _ => Except.error IngErr.embeddingUnavailable)
    [⟨"other", 0, 1, [2]⟩] IngErr.embeddingUnavailable (by decide)

/-- C6: the persisted message history is append-only — any store operation
either keeps a message verbatim or appends a brand-new one (deletion of a
conversation removes records but never rewrites one), and the
Save-and-Resend handler results in a new user message carrying the edited
text being appended to the conversation, followed by the new assistant
message, with every previously persisted message left unchanged. -/
theorem history_append_only (h : List Message) (op : StoreOp)
    (st : ChatUiState) (cid editText asstText : String)
    (an ai : Option String) (uid : String) (t : Nat) (g : TurnIds)
    (hs : st.streaming = false) (he : ¬ jsTrim editText = "") :
    (∀ m ∈ applyOp h op, m ∈ h ∨ ∃ m2, op = StoreOp.appendMsg m2 ∧ m = m2)
  ∧ ∃ req, (saveAndResendStart st cid editText an ai uid t).2 = some req
      ∧ req.message = jsTrim editText
      ∧ req.conversationId = cid
      ∧ applyOps h (chatStreamOps req asstText g) =
          h ++ [⟨g.userId, cid, Role.user, jsTrim editText, g.userAt⟩,
                ⟨g.asstId, cid, Role.assistant, asstText, g.asstAt⟩] := by
  constructor
  · intro m hm
    cases op with
    | appendMsg m2 =>
      rcases List.mem_append.mp hm with h1 | h1
      · exact Or.inl h1
      · exact Or.inr ⟨m2, rfl, List.mem_singleton.mp h1⟩
    | deleteConv c =>
      exact Or.inl (List.mem_of_mem_filter hm)
  · refine ⟨⟨cid, jsTrim editText, an, ai⟩, ?_, rfl, rfl, ?_⟩
    · unfold saveAndResendStart handleChatStart
      simp [he, hs]
    · simp [applyOps, chatStreamOps, applyOp, List.append_assoc]

/-- Witness for C6: a concrete Save-and-Resend on an idle state appends the
edited user message and the assistant reply to the history. -/
theorem history_append_only_witness :
    ∃ req, (saveAndResendStart ⟨"", false, "", none, []⟩ "c1" "hi" none none
        "u0" 0).2 = some req
      ∧ req.message = jsTrim "hi"
      ∧ req.conversationId = "c1"
      ∧ applyOps [] (chatStreamOps req "ok" ⟨"u1", "a1", 1, 2⟩) =
          [] ++ [⟨"u1", "c1", Role.user, jsTrim "hi", 1⟩,
                 ⟨"a1", "c1", Role.assistant, "ok", 2⟩] :=
  (history_append_only [] (StoreOp.deleteConv "x") ⟨"", false, "", none, []⟩
    "c1" "hi" "ok" none none "u0" 0 ⟨"u1", "a1", 1, 2⟩ rfl (by decide)).2

/-- Page deduplication only drops citations, it never invents one. -/
theorem mem_dedupPages : ∀ (seen : List (String × Nat)) (l : List Citation)
    (c : Citation), c ∈ dedupPages seen l → c ∈ l := by
  intro seen l
  induction l generalizing seen with
  | nil =>
    intro c hc
    simp [dedupPages] at hc
  | cons a t ih =>
    intro c hc
    simp only [dedupPages] at hc
    by_cases h : (a.docId, a.page) ∈ seen
    · rw [if_pos h] at hc
      exact List.mem_cons_of_mem a (ih _ c hc)
    · rw [if_neg h] at hc
      rcases List.mem_cons.mp hc with rfl | hc
      · exact List.mem_cons_self _ _
      · exact List.mem_cons_of_mem a (ih _ c hc)

/-- The ranked candidate list is sorted by descending score. -/
theorem rankedCandidates_sorted (idx : List Entry) (qv : List Int) (k : Nat)
    (src : Option String) :
    List.Sorted scoreGe (rankedCandidates idx qv k src) := by
  unfold rankedCandidates
  exact (List.sorted_insertionSort scoreGe _).sublist (List.take_sublist _ _)

/-- C5: `retrieve` never returns a citation scoring below the relevance
floor; when the top-ranked candidate is below the floor the result is the
empty citation list; and the orchestrator consumes any citation list —
including the empty one — as a valid outcome, never as an error. -/
theorem retrieve_respects_floor (embedQ : String → List Int)
    (idx : List Entry) (q : String) (k : Nat) (fl : Int)
    (src : Option String) :
    (∀ c ∈ retrieve embedQ idx q k fl src, fl ≤ c.score)
  ∧ (∀ c0, (rankedCandidates idx (embedQ q) k src).head? = some c0 →
      c0.score < fl → retrieve embedQ idx q k fl src = [])
  ∧ (∃ plan, composeTurn (retrieve embedQ idx q k fl src) q =
      Except.ok plan) := by
  refine ⟨?_, ?_, ⟨_, rfl⟩⟩
  · intro c hc
    have hmem := mem_dedupPages [] _ c hc
    have hf := List.mem_filter.mp hmem
    simpa using hf.2
  · intro c0 h0 hlt
    unfold retrieve
    cases hR : rankedCandidates idx (embedQ q) k src with
    | nil => simp [hR] at h0
    | cons a t =>
      rw [hR] at h0
      have ha : a = c0 := by simpa using h0
      subst ha
      have hsorted := rankedCandidates_sorted idx (embedQ q) k src
      rw [hR] at hsorted
      have hrest := (List.sorted_cons.mp hsorted).1
      have hfilter : (a :: t).filter (fun c => fl ≤ c.score) = [] := by
        apply List.filter_eq_nil_iff.mpr
        intro b hb
        rcases List.mem_cons.mp hb with rfl | hbt
        · simp
          omega
        · have hba : b.score ≤ a.score := hrest b hbt
          simp
          omega
      rw [hfilter]
      rfl

/-- Witness for C5: a one-entry index whose only candidate scores below the
floor yields the empty citation list. -/
theorem retrieve_respects_floor_witness :
    retrieve (fun _ => [-3]) [⟨"d", 0, 1, [1]⟩] "q" 5 0 none = [] :=
  (retrieve_respects_floor (fun _ => [-3]) [⟨"d", 0, 1, [1]⟩] "q" 5 0
    none).2.1 ⟨"d", 1, ("d", 0), -3⟩ (by decide) (by decide)

/-- The fresh entries produced for document `d` from the chunking of
`pages` under embedding `f`. -/
def freshEntries (d : String) (pages : List (Nat × String))
    (f : Chunk → List Int) : List Entry :=
  (chunkPages pages).enum.map (fun p => mkEntry d p.1 p.2 (f p.2))

/-- Upserting an entry whose id is absent appends it. -/
theorem upsert_of_not_mem (idx : List Entry) (e : Entry)
    (h : ∀ x ∈ idx, entryId x ≠ entryId e) : upsert idx e = idx ++ [e] := by
  unfold upsert
  congr 1
  apply List.filter_eq_self.mpr
  intro x hx
  simpa using h x hx

/-- The embed-and-upsert loop with a total embedding appends exactly one
fresh entry per chunk, in order, when the pending ids are distinct and
absent from the accumulated index. -/
theorem ingestGo_ok (d : String) (f : Chunk → List Int) :
    ∀ (pairs : List (Nat × Chunk)) (idx : List Entry),
    (pairs.map Prod.fst).Nodup →
    (∀ x ∈ idx, entryId x ∉ pairs.map (fun p => ((d, p.1) : String × Nat))) →
    ingestGo d (fun c => Except.ok (f c)) pairs idx =
      (none, idx ++ pairs.map (fun p => mkEntry d p.1 p.2 (f p.2))) := by
  intro pairs
  induction pairs with
  | nil =>
    intro idx _ _
    simp [ingestGo]
  | cons p rest ih =>
    obtain ⟨i, c⟩ := p
    intro idx hnd hdisj
    rw [ingestGo]
    dsimp only
    rw [upsert_of_not_mem idx (mkEntry d i c (f c)) ?habsent]
    case habsent =>
      intro x hx heq
      apply hdisj x hx
      rw [heq]
      exact List.mem_map.mpr ⟨(i, c), List.mem_cons_self _ _, rfl⟩
    rw [ih (idx ++ [mkEntry d i c (f c)]) (List.Nodup.of_cons hnd) ?hdisj2]
    case hdisj2 =>
      intro x hx hmem
      rcases List.mem_append.mp hx with hx1 | hx2
      · exact hdisj x hx1 (List.mem_cons_of_mem _ hmem)
      · have hxe : x = mkEntry d i c (f c) := List.mem_singleton.mp hx2
        subst hxe
        have hi : i ∈ rest.map Prod.fst := by
          rcases List.mem_map.mp hmem with ⟨p, hp, he⟩
          have : p.1 = i := congrArg Prod.snd he
          exact this ▸ List.mem_map.mpr ⟨p, hp, rfl⟩
        exact (List.nodup_cons.mp hnd).1 hi
    simp

/-- Modelled ingestion with a total embedding succeeds and yields the prior
index minus the document's old entries, followed by the fresh entries. -/
theorem ingestDoc_ok (d : String) (pages : List (Nat × String))
    (f : Chunk → List Int) (idx : List Entry) :
    ingestDoc d pages (fun c => Except.ok (f c)) idx =
      (none, deleteDoc idx d ++ freshEntries d pages f) := by
  unfold ingestDoc freshEntries
  apply ingestGo_ok
  · exact List.nodup_enum_map_fst _
  · intro x hx hmem
    have hxd : x.docId ≠ d := by
      have := List.mem_filter.mp hx
      simpa using this.2
    rcases List.mem_map.mp hmem with ⟨p, hp, he⟩
    exact hxd (congrArg Prod.fst he).symm

/-- Deleting a document twice equals deleting it once. -/
theorem deleteDoc_deleteDoc (idx : List Entry) (d : String) :
    deleteDoc (deleteDoc idx d) d = deleteDoc idx d := by
  simp [deleteDoc, List.filter_filter]

/-- Deletion distributes over concatenation of index segments. -/
theorem deleteDoc_append (a b : List Entry) (d : String) :
    deleteDoc (a ++ b) d = deleteDoc a d ++ deleteDoc b d := by
  simp [deleteDoc, List.filter_append]

/-- Deleting the freshly ingested document removes all fresh entries. -/
theorem deleteDoc_fresh (d : String) (pages : List (Nat × String))
    (f : Chunk → List Int) : deleteDoc (freshEntries d pages f) d = [] := by
  apply List.filter_eq_nil_iff.mpr
  intro e he
  rcases List.mem_map.mp he with ⟨p, hp, rfl⟩
  simp [mkEntry]

/-- All fresh entries belong to the ingested document. -/
theorem filter_fresh_self (d : String) (pages : List (Nat × String))
    (f : Chunk → List Int) :
    (freshEntries d pages f).filter (fun e => e.docId = d) =
      freshEntries d pages f := by
  apply List.filter_eq_self.mpr
  intro e he
  rcases List.mem_map.mp he with ⟨p, hp, rfl⟩
  simp [mkEntry]

/-- One entry per chunk. -/
theorem freshEntries_length (d : String) (pages : List (Nat × String))
    (f : Chunk → List Int) :
    (freshEntries d pages f).length = (chunkPages pages).length := by
  simp [freshEntries]

/-- The ids of the fresh entries are pairwise distinct. -/
theorem freshEntries_nodup_ids (d : String) (pages : List (Nat × String))
    (f : Chunk → List Int) :
    ((freshEntries d pages f).map entryId).Nodup := by
  unfold freshEntries
  rw [List.map_map]
  have h1 : (entryId ∘ fun p : Nat × Chunk => mkEntry d p.1 p.2 (f p.2)) =
      (fun i : Nat => ((d, i) : String × Nat)) ∘ Prod.fst := rfl
  rw [h1, ← List.map_map]
  refine List.Nodup.map ?_ (List.nodup_enum_map_fst _)
  intro a b hab
  simpa using hab

/-- C4: re-ingesting the same document id with the same bytes under the
same embedding succeeds, produces the same number of chunks, fully replaces
the prior chunks and vectors for that document (the index is bit-for-bit
the one after the first ingestion), and leaves no duplicate entries in the
Vector Index. -/
theorem ingest_idempotent (d : String) (pages : List (Nat × String))
    (f : Chunk → List Int) (idx : List Entry)
    (hnd : (idx.map entryId).Nodup) :
    (ingestDoc d pages (fun c => Except.ok (f c)) idx).1 = none
  ∧ (ingestDoc d pages (fun c => Except.ok (f c))
      (ingestDoc d pages (fun c => Except.ok (f c)) idx).2).1 = none
  ∧ (ingestDoc d pages (fun c => Except.ok (f c))
      (ingestDoc d pages (fun c => Except.ok (f c)) idx).2).2 =
    (ingestDoc d pages (fun c => Except.ok (f c)) idx).2
  ∧ (((ingestDoc d pages (fun c => Except.ok (f c)) idx).2).filter
      (fun e => e.docId = d)).length = (chunkPages pages).length
  ∧ (((ingestDoc d pages (fun c => Except.ok (f c))
      (ingestDoc d pages (fun c => Except.ok (f c)) idx).2).2).map
        entryId).Nodup := by
  have h1 := ingestDoc_ok d pages f idx
  have h2 := ingestDoc_ok d pages f (deleteDoc idx d ++ freshEntries d pages f)
  have hsecond :
      (ingestDoc d pages (fun c => Except.ok (f c))
        (ingestDoc d pages (fun c => Except.ok (f c)) idx).2).2 =
      deleteDoc idx d ++ freshEntries d pages f := by
    rw [h1]
    dsimp only
    rw [h2]
    dsimp only
    rw [deleteDoc_append, deleteDoc_deleteDoc, deleteDoc_fresh,
      List.append_nil]
  refine ⟨?_, ?_, ?_, ?_, ?_⟩
  · rw [h1]
  · rw [h1]
    dsimp only
    rw [h2]
  · rw [hsecond, h1]
  · rw [h1]
    dsimp only
    rw [List.filter_append, deleteDoc_filter_self, filter_fresh_self,
      List.nil_append, freshEntries_length]
  · rw [hsecond, List.map_append, List.nodup_append]
    refine ⟨?_, freshEntries_nodup_ids d pages f, ?_⟩
    · exact List.Nodup.sublist
        (List.Sublist.map entryId (List.filter_sublist _)) hnd
    · intro a ha hb
      rcases List.mem_map.mp ha with ⟨x, hx, rfl⟩
      rcases List.mem_map.mp hb with ⟨y, hy, he⟩
      have hxd : x.docId ≠ d := by
        have := List.mem_filter.mp hx
        simpa using this.2
      have hyd : y.docId = d := by
        rcases List.mem_map.mp hy with ⟨p, hp, rfl⟩
        rfl
      have hfst : y.docId = x.docId := congrArg Prod.fst he
      exact hxd (hfst ▸ hyd)

/-- Witness for C4: re-ingesting a one-page document into an empty index
reproduces exactly the index of the first ingestion. -/
theorem ingest_idempotent_witness :
    (ingestDoc "doc" [(1, "x")] (fun _ => Except.ok [1])
      (ingestDoc "doc" [(1, "x")] (fun _ => Except.ok [1]) []).2).2 =
    (ingestDoc "doc" [(1, "x")] (fun _ => Except.ok [1]) []).2 :=
  (ingest_idempotent "doc" [(1, "x")] (fun _ => [1]) [] (by simp)).2.2.1

end DocChat
